import Mathlib

/-!
Verification of the ispf positional binary codec (src/ser.rs, src/de.rs,
src/error.rs, src/lib.rs) against its natural-language specification.

The embedding models the LittleEndian instantiation of the codec (the only
one the crate instantiates).  Byte buffers are `List Nat` whose entries are
byte values; machine-integer casts are modelled with explicit `% 2 ^ w`.
Rust panics (out-of-bounds slice indexing, debug-mode arithmetic overflow)
abort the call without returning an `Error` value; they are modelled by the
distinguished outcome `RunError.crash`, kept separate from returned
`Error` values (`RunError.err`).
-/

/-- The error enum of src/error.rs.  The `Message` payload is irrelevant to
the claims and is dropped; `Syntax` is rendered `synError` here. -/
inductive Error where
  | message
  | eof
  | synError
  | expectedBoolean
  | expectedInteger
  | expectedString
  | expectedNull
  | expectedArray
  | expectedEnum
  | trailingBytes
deriving DecidableEq, Repr

/-- Outcome of running a fallible piece of the Rust code: either a returned
`Error` value, a Rust panic (`crash`: slice-index out of bounds or a
debug-mode arithmetic overflow), or `hang`, marking a source-level infinite
loop (reachable only in the byte-budget sequence loop when an element decode
consumes zero bytes). -/
inductive RunError where
  | crash
  | hang
  | err (e : Error)
deriving DecidableEq, Repr

/-- The four fixed integer widths of the codec, in bytes. -/
inductive Width where
  | w8
  | w16
  | w32
  | w64
deriving DecidableEq, Repr

/-- Byte size of a width (std::mem::size_of in the source). -/
def widthBytes : Width → Nat
  | .w8 => 1
  | .w16 => 2
  | .w32 => 4
  | .w64 => 8

/-- Little-endian byte decomposition: `to_le_bytes` of the source's
`NumSer for LittleEndian` (ser.rs), generalised over the byte count.  For a
value too large for the width this takes the low bytes, which is exactly what
the Rust `as` cast feeding the write does. -/
def to_le_bytes : Nat → Nat → List Nat
  | 0, _ => []
  | k + 1, v => v % 256 :: to_le_bytes k (v / 256)

/-- Little-endian byte recomposition: `from_le_bytes` of the source's
`NumDe for LittleEndian` (de.rs). -/
def from_le_bytes : List Nat → Nat
  | [] => 0
  | b :: rest => b + 256 * from_le_bytes rest

theorem to_le_bytes_length (k v : Nat) : (to_le_bytes k v).length = k := by
  induction k generalizing v with
  | zero => rfl
  | succ k ih => simp [to_le_bytes, ih]

theorem from_le_to_le (k v : Nat) :
    from_le_bytes (to_le_bytes k v) = v % 256 ^ k := by
  induction k generalizing v with
  | zero => simp [to_le_bytes, from_le_bytes, Nat.mod_one]
  | succ k ih =>
    simp only [to_le_bytes, from_le_bytes, ih]
    rw [pow_succ, Nat.mul_comm (256 ^ k) 256, Nat.mod_mul]

theorem from_le_to_le_of_lt {k v : Nat} (h : v < 256 ^ k) :
    from_le_bytes (to_le_bytes k v) = v := by
  rw [from_le_to_le, Nat.mod_eq_of_lt h]

/-- A UTF-8 continuation byte (0x80..=0xBF). -/
def utf8Cont (b : Nat) : Bool := 0x80 ≤ b && b ≤ 0xBF

/-- Sequence length (1 to 4 bytes) dictated by a UTF-8 lead byte, or 0 when
the byte cannot start a sequence, following the RFC 3629 table used by
Rust's `std::str::from_utf8`. -/
def utf8Class (b : Nat) : Nat :=
  if b ≤ 0x7F then 1
  else if 0xC2 ≤ b && b ≤ 0xDF then 2
  else if b = 0xE0 || (0xE1 ≤ b && b ≤ 0xEC) || b = 0xED || b = 0xEE || b = 0xEF then 3
  else if b = 0xF0 || (0xF1 ≤ b && b ≤ 0xF3) || b = 0xF4 then 4
  else 0

/-- Allowed range of the byte that follows a multi-byte lead: the lead bytes
0xE0, 0xED, 0xF0, 0xF4 restrict it (ruling out overlong forms, surrogates and
code points above U+10FFFF), all others take a plain continuation byte. -/
def utf8SecondOk (b b1 : Nat) : Bool :=
  if b = 0xE0 then 0xA0 ≤ b1 && b1 ≤ 0xBF
  else if b = 0xED then 0x80 ≤ b1 && b1 ≤ 0x9F
  else if b = 0xF0 then 0x90 ≤ b1 && b1 ≤ 0xBF
  else if b = 0xF4 then 0x80 ≤ b1 && b1 ≤ 0x8F
  else utf8Cont b1

/-- Validity of a byte sequence as UTF-8, as checked by Rust's
`std::str::from_utf8` (RFC 3629: no overlong forms, no surrogates, no code
points above U+10FFFF). -/
def utf8Valid : List Nat → Bool
  | [] => true
  | b :: rest =>
    match utf8Class b, rest with
    | 1, r => utf8Valid r
    | 2, b1 :: r => utf8SecondOk b b1 && utf8Valid r
    | 3, b1 :: b2 :: r => utf8SecondOk b b1 && utf8Cont b2 && utf8Valid r
    | 4, b1 :: b2 :: b3 :: r =>
      utf8SecondOk b b1 && utf8Cont b2 && utf8Cont b3 && utf8Valid r
    | _, _ => false

theorem utf8Class_of_ascii {b : Nat} (h : b ≤ 0x7F) : utf8Class b = 1 := by
  simp [utf8Class, h]

/-- ASCII byte sequences are valid UTF-8. -/
theorem utf8Valid_of_ascii {s : List Nat} (h : ∀ b ∈ s, b ≤ 0x7F) :
    utf8Valid s = true := by
  induction s with
  | nil => rfl
  | cons b rest ih =>
    have hb : utf8Class b = 1 := utf8Class_of_ascii (h b (List.mem_cons_self ..))
    simp only [utf8Valid, hb]
    exact ih fun x hx => h x (List.mem_cons_of_mem _ hx)

/-- Models `Deserializer::deserialize_u8/u16/u32/u64` (de.rs): take the first
`k` bytes of the cursor and read them little-endian.  The source indexes or
slices the input (`self.input[0]`, `&self.input[..2]` ...), which panics when
fewer than `k` bytes remain; the `map_err(|_| Error::Eof)` attached to the
`try_into` is unreachable because the slice taken always has length exactly
`k`. -/
def deserialize_uint (k : Nat) (input : List Nat) :
    Except RunError (Nat × List Nat) :=
  if input.length < k then .error .crash
  else .ok (from_le_bytes (input.take k), input.drop k)

/-- Models the `ReadSize` impls of de.rs together with the cursor advance
(`self.input = &self.input[n..]`) done by the `vecN`/`vecNb` arms of
`deserialize_tuple_struct` right after calling them: read a `k`-byte
little-endian length field.  The slice `&self.input[..n]` panics when fewer
than `k` bytes remain, so the `ExpectedInteger` error of the impls is
unreachable through these callers. -/
def read_size (k : Nat) (input : List Nat) :
    Except RunError (Nat × List Nat) :=
  if input.length < k then .error .crash
  else .ok (from_le_bytes (input.take k), input.drop k)

/-- Index of the first 0x00 byte, if any (the scan loop of
`Deserializer::deserialize_str`). -/
def findNull : List Nat → Option Nat
  | [] => none
  | b :: rest => if b = 0 then some 0 else (findNull rest).map (· + 1)

/-- Models `Deserializer::deserialize_str` (de.rs): scan forward to the first
0x00 byte, validate the bytes before it as UTF-8 (`map_err` to
`Error::ExpectedString`), and advance the cursor past the terminator.  When
no terminator exists the scan indexes past the end of the input and the
source panics (`self.input[i]` out of bounds), modelled by `.crash`. -/
def deserialize_str (input : List Nat) :
    Except RunError (List Nat × List Nat) :=
  match findNull input with
  | none => .error .crash
  | some i =>
    let s := input.take i
    if utf8Valid s then .ok (s, input.drop (i + 1))
    else .error (.err .expectedString)

/-- Models `Deserializer::read_tlv_string` (de.rs): read a `k`-byte
little-endian length, slice off that many payload bytes and validate them as
UTF-8.  Both slices (`&self.input[..n]` and `&self.input[n..n+len]`) panic
when the input is too short (`.crash`); a payload that is not valid UTF-8 is
mapped to `Error::Eof` by the source's `map_err(|_| Error::Eof)`. -/
def read_tlv_string (k : Nat) (input : List Nat) :
    Except RunError (List Nat × List Nat) :=
  if input.length < k then .error .crash
  else
    let len := from_le_bytes (input.take k)
    if input.length < k + len then .error .crash
    else
      let payload := (input.drop k).take len
      if utf8Valid payload then .ok (payload, input.drop (k + len))
      else .error (.err .eof)

/-- Models the `PackedArray` sequence access of de.rs driven by the
`TlvVecVisitor` loop: the counter starts at `count + 1` (the source's
`PackedArray::new(self, len + 1)`), and each `next_element_seed` call first
decrements it and stops when it reaches zero, otherwise decodes one element.
A start value of 0 would make the source's `self.count -= 1` underflow
(`.crash`); the entry point never produces it. -/
def packed_array {α : Type} (dec : List Nat → Except RunError (α × List Nat)) :
    Nat → List Nat → Except RunError (List α × List Nat)
  | 0, _ => .error .crash
  | count + 1, input =>
    if count = 0 then .ok ([], input)
    else
      match dec input with
      | .error e => .error e
      | .ok (v, rest) =>
        match packed_array dec count rest with
        | .error e => .error e
        | .ok (vs, rest') => .ok (v :: vs, rest')

/-- Models the `PackedArrayByteSized` sequence access of de.rs driven by the
`TlvVecVisitor` loop: stop when the remaining byte budget is zero, otherwise
decode one element, measure how many cursor bytes it consumed and subtract
that from the budget (`self.bytes -= before - after`).  When an element
consumes more bytes than remain in the budget the subtraction underflows the
source's `usize` (`.crash`, the debug-mode overflow check); an element that
consumes no bytes leaves the state unchanged and the source loops forever
(`.hang`). -/
def packed_array_byte_sized {α : Type}
    (dec : List Nat → Except RunError (α × List Nat)) :
    Nat → List Nat → Except RunError (List α × List Nat)
  | 0, input => .ok ([], input)
  | bytes + 1, input =>
    match dec input with
    | .error e => .error e
    | .ok (v, rest) =>
      let consumed := input.length - rest.length
      if consumed = 0 then .error .hang
      else if bytes + 1 < consumed then .error .crash
      else
        match packed_array_byte_sized dec (bytes + 1 - consumed) rest with
        | .error e => .error e
        | .ok (vs, rest') => .ok (v :: vs, rest')
termination_by b _ => b
decreasing_by omega

/-- Decoding exactly `n` consecutive elements, threading the unconsumed
tail: the plain restatement of the element-count loop that the spec gives as
the external contract of count-prefixed sequence decoding. -/
def decode_elems {α : Type}
    (dec : List Nat → Except RunError (α × List Nat)) :
    Nat → List Nat → Except RunError (List α × List Nat)
  | 0, input => .ok ([], input)
  | n + 1, input =>
    match dec input with
    | .error e => .error e
    | .ok (v, rest) =>
      match decode_elems dec n rest with
      | .error e => .error e
      | .ok (vs, rest') => .ok (v :: vs, rest')

/-- The closed set of field framings the codec supports, the "FieldCodec"
sum of the spec's design notes: fixed-width unsigned integers
(`serialize_u8..u64` / `deserialize_u8..u64`), the default null-terminated
string (`serialize_str` / `deserialize_str`), length-value strings of the
four widths (`str_lv8..str_lv64` of lib.rs / the `string8..string64` arms of
`deserialize_tuple_struct`), element-count-prefixed sequences of the four
widths (`vec_lv8..vec_lv64` / the `vec8..vec64` arms), and records as the
ordered list of their field schemas, written as a cons chain (`recCons` /
`recNil`); a nested record contributes no framing of its own. -/
inductive Schema where
  | prim (w : Width)
  | nullStr
  | lvStr (w : Width)
  | countSeq (w : Width) (elem : Schema)
  | recNil
  | recCons (field : Schema) (rest : Schema)
deriving DecidableEq, Repr

/-- In-memory values: unsigned integers, strings (as their UTF-8 bytes),
sequences, and records as cons chains of field values. -/
inductive Value where
  | prim (n : Nat)
  | str (s : List Nat)
  | seq (elems : List Value)
  | vnil
  | vcons (head : Value) (tail : Value)
deriving Repr

/-- The decode side of the structural traversal engine, assembled from the
pieces of de.rs exactly as the serde machinery dispatches them: a struct's
derived `Deserialize` walks its fields in order over the shared cursor
(`TlvStruct`), each field going to `deserialize_uN`, `deserialize_str`, a
`stringN` or a `vecN` arm of `deserialize_tuple_struct`.  Returns the decoded
value and the unconsumed tail of the input. -/
def decode : Schema → List Nat → Except RunError (Value × List Nat)
  | .prim w, input =>
    match deserialize_uint (widthBytes w) input with
    | .error e => .error e
    | .ok (n, rest) => .ok (.prim n, rest)
  | .nullStr, input =>
    match deserialize_str input with
    | .error e => .error e
    | .ok (s, rest) => .ok (.str s, rest)
  | .lvStr w, input =>
    match read_tlv_string (widthBytes w) input with
    | .error e => .error e
    | .ok (s, rest) => .ok (.str s, rest)
  | .countSeq w e, input =>
    match read_size (widthBytes w) input with
    | .error er => .error er
    | .ok (n, rest) =>
      match packed_array (fun i => decode e i) (n + 1) rest with
      | .error er => .error er
      | .ok (vs, rest') => .ok (.seq vs, rest')
  | .recNil, input => .ok (.vnil, input)
  | .recCons f fs, input =>
    match decode f input with
    | .error e => .error e
    | .ok (v, rest) =>
      match decode fs rest with
      | .error e => .error e
      | .ok (vs, rest') => .ok (.vcons v vs, rest')

/-- Concatenation of the encodings of a sequence's elements, in order (the
`Serialize for Vec<T>` walk through `serialize_seq`). -/
def encode_elems (enc : Value → Option (List Nat)) : List Value → Option (List Nat)
  | [] => some []
  | v :: vs =>
    match enc v, encode_elems enc vs with
    | some b, some bs => some (b ++ bs)
    | _, _ => none

/-- The encode side of the structural traversal engine (ser.rs): a struct's
derived `Serialize` appends each field in order to the output buffer;
integers via `serialize_u8..u64` little-endian, the default string via
`serialize_str` (UTF-8 bytes plus one 0x00), `str_lvW` fields as the byte
length cast to the W-bit width (the Rust `as` cast keeps the low bytes)
followed by the payload bytes, `vec_lvW` fields as the element count cast to
the width followed by the element encodings.  `none` marks a value whose
shape does not match the schema, which the Rust type system rules out. -/
def encode : Schema → Value → Option (List Nat)
  | .prim w, .prim n => some (to_le_bytes (widthBytes w) n)
  | .nullStr, .str s => some (s ++ [0])
  | .lvStr w, .str s => some (to_le_bytes (widthBytes w) s.length ++ s)
  | .countSeq w e, .seq vs =>
    match encode_elems (fun v => encode e v) vs with
    | some body => some (to_le_bytes (widthBytes w) vs.length ++ body)
    | none => none
  | .recNil, .vnil => some []
  | .recCons f fs, .vcons v vs =>
    match encode f v, encode fs vs with
    | some b, some bs => some (b ++ bs)
    | _, _ => none
  | _, _ => none

/-- The invariants Rust's types already guarantee for a value of a given
record type: the shape matches the schema, integer fields fit their width,
and string fields hold valid UTF-8 (a `String` is valid UTF-8 by
construction). -/
def wellTyped : Schema → Value → Bool
  | .prim w, .prim n => n < 2 ^ (8 * widthBytes w)
  | .nullStr, .str s => utf8Valid s
  | .lvStr _, .str s => utf8Valid s
  | .countSeq _ e, .seq vs => vs.all (fun v => wellTyped e v)
  | .recNil, .vnil => true
  | .recCons f fs, .vcons v vs => wellTyped f v && wellTyped fs vs
  | _, _ => false

/-- The extra conditions under which an encoding decodes back to the same
value: null-terminated string fields contain no 0x00 byte, and every
length-value string or count-prefixed sequence is short enough for its
W-bit length field. -/
def roundSafe : Schema → Value → Bool
  | .prim _, .prim _ => true
  | .nullStr, .str s => s.all (fun b => b ≠ 0)
  | .lvStr w, .str s => s.length < 2 ^ (8 * widthBytes w)
  | .countSeq w e, .seq vs =>
    (vs.length < 2 ^ (8 * widthBytes w) : Bool) && vs.all (fun v => roundSafe e v)
  | .recNil, .vnil => true
  | .recCons f fs, .vcons v vs => roundSafe f v && roundSafe fs vs
  | _, _ => false

/-- Models `from_bytes` / `from_bytes_le` (de.rs): run the top-level decode
and return the value, ignoring any unconsumed bytes. -/
def from_bytes (s : Schema) (b : List Nat) : Except RunError Value :=
  match decode s b with
  | .error e => .error e
  | .ok (v, _) => .ok v

/-- Modelled from the spec: the strict decode mode of the round-trip entry
points, absent from src (src/error.rs declares `Error::TrailingBytes` but
src/de.rs never raises it; the spec describes strict mode as failing with
the trailing-bytes error when any bytes remain in the cursor after the
top-level record is fully decoded). -/
def from_bytes_strict (s : Schema) (b : List Nat) : Except RunError Value :=
  match decode s b with
  | .error e => .error e
  | .ok (v, []) => .ok v
  | .ok (_, _ :: _) => .error (.err .trailingBytes)

/-- Models `to_bytes` / `to_bytes_le` (ser.rs): serialize the value into a
fresh output buffer. -/
def to_bytes (s : Schema) (v : Value) : Option (List Nat) := encode s v

theorem findNull_some_lt {l : List Nat} {i : Nat} (h : findNull l = some i) :
    i < l.length := by
  induction l generalizing i with
  | nil => simp [findNull] at h
  | cons b rest ih =>
    simp only [findNull] at h
    by_cases hb : b = 0
    · simp [hb] at h
      simp only [List.length_cons]
      omega
    · simp only [if_neg hb, Option.map_eq_some'] at h
      obtain ⟨j, hj, rfl⟩ := h
      have := ih hj
      simp only [List.length_cons]
      omega

theorem findNull_append_some {l : List Nat} {i : Nat} (e : List Nat)
    (h : findNull l = some i) : findNull (l ++ e) = some i := by
  induction l generalizing i with
  | nil => simp [findNull] at h
  | cons b rest ih =>
    simp only [findNull] at h ⊢
    by_cases hb : b = 0
    · simpa [hb] using h
    · simp only [if_neg hb, Option.map_eq_some'] at h ⊢
      obtain ⟨j, hj, rfl⟩ := h
      exact ⟨j, ih hj, rfl⟩

theorem findNull_of_no_null {s : List Nat} (rest : List Nat)
    (h : ∀ b ∈ s, b ≠ 0) : findNull (s ++ 0 :: rest) = some s.length := by
  induction s with
  | nil => simp [findNull]
  | cons b s ih =>
    have hb : b ≠ 0 := h b (List.mem_cons_self ..)
    simp only [List.cons_append, findNull, if_neg hb, List.append_eq]
    rw [ih fun x hx => h x (List.mem_cons_of_mem _ hx)]
    simp

/-- The internal count-plus-one sentinel of `PackedArray` decodes exactly the
same as plainly decoding `n` consecutive elements. -/
theorem packed_array_succ_eq {α : Type}
    (dec : List Nat → Except RunError (α × List Nat)) (n : Nat)
    (input : List Nat) :
    packed_array dec (n + 1) input = decode_elems dec n input := by
  induction n generalizing input with
  | zero => rfl
  | succ n ih =>
    simp only [packed_array, decode_elems]
    rw [if_neg (Nat.succ_ne_zero n)]
    cases dec input with
    | error e => rfl
    | ok p =>
      obtain ⟨v, rest⟩ := p
      dsimp only
      rw [← ih rest]
      rfl

theorem decode_elems_length {α : Type}
    {dec : List Nat → Except RunError (α × List Nat)} :
    ∀ {n : Nat} {input : List Nat} {vs : List α} {rest : List Nat},
      decode_elems dec n input = .ok (vs, rest) → vs.length = n := by
  intro n
  induction n with
  | zero =>
    intro input vs rest h
    simp only [decode_elems, Except.ok.injEq, Prod.mk.injEq] at h
    simp [← h.1]
  | succ n ih =>
    intro input vs rest h
    simp only [decode_elems] at h
    cases hd : dec input with
    | error e => simp [hd] at h
    | ok p =>
      obtain ⟨v, r⟩ := p
      simp only [hd] at h
      cases hrec : decode_elems dec n r with
      | error e => simp [hrec] at h
      | ok q =>
        obtain ⟨vs', r'⟩ := q
        simp only [hrec, Except.ok.injEq, Prod.mk.injEq] at h
        have := ih hrec
        simp [← h.1, this]

/-- Element-wise round trip lifts to the element-sequence walk: if every
element of the list decodes back from its own encoding with the tail
preserved, the concatenated encodings decode back to the list. -/
theorem decode_elems_of_encode_elems
    {dec : List Nat → Except RunError (Value × List Nat)}
    {enc : Value → Option (List Nat)} :
    ∀ (vs : List Value) (body rest : List Nat),
      (∀ x ∈ vs, ∀ b r, enc x = some b → dec (b ++ r) = .ok (x, r)) →
      encode_elems enc vs = some body →
      decode_elems dec vs.length (body ++ rest) = .ok (vs, rest) := by
  intro vs
  induction vs with
  | nil =>
    intro body rest _ henc
    simp only [encode_elems, Option.some.injEq] at henc
    subst henc
    rfl
  | cons x xs ih =>
    intro body rest hel henc
    simp only [encode_elems] at henc
    cases hx : enc x with
    | none => simp [hx] at henc
    | some b =>
      cases hxs : encode_elems enc xs with
      | none => simp [hx, hxs] at henc
      | some bs =>
        simp only [hx, hxs, Option.some.injEq] at henc
        subst henc
        have h1 : dec (b ++ (bs ++ rest)) = .ok (x, bs ++ rest) :=
          hel x (List.mem_cons_self ..) b (bs ++ rest) hx
        have h2 : decode_elems dec xs.length (bs ++ rest) = .ok (xs, rest) :=
          ih bs rest (fun y hy => hel y (List.mem_cons_of_mem _ hy)) hxs
        simp only [List.length_cons, decode_elems, List.append_assoc, h1, h2]

theorem take_append_exact {α : Type} {l₁ : List α} (l₂ : List α) {k : Nat}
    (h : l₁.length = k) : (l₁ ++ l₂).take k = l₁ := by
  subst h
  exact List.take_left ..

theorem drop_append_exact {α : Type} {l₁ : List α} (l₂ : List α) {k : Nat}
    (h : l₁.length = k) : (l₁ ++ l₂).drop k = l₂ := by
  subst h
  exact List.drop_left ..

theorem two_pow_8mul (k : Nat) : (2 : Nat) ^ (8 * k) = 256 ^ k := by
  rw [pow_mul]
  norm_num

/-- A `k`-byte little-endian field followed by anything reads back as the
written value, cursor advanced past the field. -/
theorem deserialize_uint_round {k n : Nat} (hk : n < 256 ^ k)
    (rest : List Nat) :
    deserialize_uint k (to_le_bytes k n ++ rest) = .ok (n, rest) := by
  have hlen := to_le_bytes_length k n
  simp only [deserialize_uint, List.length_append, hlen]
  rw [if_neg (by omega), take_append_exact _ hlen, drop_append_exact _ hlen,
    from_le_to_le_of_lt hk]

theorem read_size_round {k n : Nat} (hk : n < 256 ^ k) (rest : List Nat) :
    read_size k (to_le_bytes k n ++ rest) = .ok (n, rest) := by
  have hlen := to_le_bytes_length k n
  simp only [read_size, List.length_append, hlen]
  rw [if_neg (by omega), take_append_exact _ hlen, drop_append_exact _ hlen,
    from_le_to_le_of_lt hk]

/-- A null-terminated encoding of a string without interior 0x00 bytes reads
back as the string, cursor advanced past the terminator. -/
theorem deserialize_str_round {s : List Nat} (rest : List Nat)
    (h0 : ∀ b ∈ s, b ≠ 0) (hu : utf8Valid s = true) :
    deserialize_str (s ++ [0] ++ rest) = .ok (s, rest) := by
  have hfind : findNull (s ++ [0] ++ rest) = some s.length := by
    rw [List.append_assoc]
    exact findNull_of_no_null rest h0
  have htake : (s ++ [0] ++ rest).take s.length = s := by
    rw [List.append_assoc]
    exact take_append_exact _ rfl
  have hdrop : (s ++ [0] ++ rest).drop (s.length + 1) = rest := by
    exact drop_append_exact _ (by simp)
  simp only [deserialize_str, hfind, htake, hdrop, hu]
  rfl

/-- A length-value encoding of a string that fits its width reads back as the
string, cursor advanced past the payload. -/
theorem read_tlv_string_round {k : Nat} {s : List Nat} (rest : List Nat)
    (hs : s.length < 256 ^ k) (hu : utf8Valid s = true) :
    read_tlv_string k (to_le_bytes k s.length ++ s ++ rest) = .ok (s, rest) := by
  have hlen := to_le_bytes_length k s.length
  have e1 : (to_le_bytes k s.length ++ s ++ rest).take k =
      to_le_bytes k s.length := by
    rw [List.append_assoc]
    exact take_append_exact _ hlen
  have e2 : (to_le_bytes k s.length ++ s ++ rest).drop k = s ++ rest := by
    rw [List.append_assoc]
    exact drop_append_exact _ hlen
  have e3 : (to_le_bytes k s.length ++ s ++ rest).drop (k + s.length) =
      rest := by
    exact drop_append_exact _ (by simp [hlen])
  have e4 : (s ++ rest).take s.length = s := take_append_exact rest rfl
  have hL : (to_le_bytes k s.length ++ s ++ rest).length =
      k + s.length + rest.length := by
    simp [hlen]
    omega
  simp only [read_tlv_string, hL, e1, from_le_to_le_of_lt hs, e2, e4, e3, hu]
  rw [if_neg (by omega), if_neg (by omega)]
  rfl

/-- The central round-trip lemma: a well-typed, round-trip-safe value's
encoding decodes back to the same value, preserving whatever follows it in
the buffer. -/
theorem decode_encode :
    ∀ (s : Schema) (v : Value), wellTyped s v = true → roundSafe s v = true →
      ∀ (bytes : List Nat), encode s v = some bytes →
        ∀ (rest : List Nat), decode s (bytes ++ rest) = .ok (v, rest) := by
  intro s
  induction s with
  | prim w =>
    intro v h1 h2 bytes henc rest
    cases v with
    | prim n =>
      simp only [encode, Option.some.injEq] at henc
      subst henc
      simp only [wellTyped, decide_eq_true_eq, two_pow_8mul] at h1
      simp only [decode, deserialize_uint_round h1 rest]
    | str s => simp [wellTyped] at h1
    | seq vs => simp [wellTyped] at h1
    | vnil => simp [wellTyped] at h1
    | vcons a b => simp [wellTyped] at h1
  | nullStr =>
    intro v h1 h2 bytes henc rest
    cases v with
    | str s =>
      simp only [encode, Option.some.injEq] at henc
      subst henc
      simp only [wellTyped] at h1
      simp only [roundSafe, List.all_eq_true, decide_eq_true_eq] at h2
      simp only [decode, deserialize_str_round rest h2 h1]
    | prim n => simp [wellTyped] at h1
    | seq vs => simp [wellTyped] at h1
    | vnil => simp [wellTyped] at h1
    | vcons a b => simp [wellTyped] at h1
  | lvStr w =>
    intro v h1 h2 bytes henc rest
    cases v with
    | str s =>
      simp only [encode, Option.some.injEq] at henc
      subst henc
      simp only [wellTyped] at h1
      simp only [roundSafe, decide_eq_true_eq, two_pow_8mul] at h2
      simp only [decode, read_tlv_string_round rest h2 h1]
    | prim n => simp [wellTyped] at h1
    | seq vs => simp [wellTyped] at h1
    | vnil => simp [wellTyped] at h1
    | vcons a b => simp [wellTyped] at h1
  | countSeq w e ihe =>
    intro v h1 h2 bytes henc rest
    cases v with
    | seq vs =>
      simp only [encode] at henc
      cases hbody : encode_elems (fun v => encode e v) vs with
      | none => simp [hbody] at henc
      | some body =>
        simp only [hbody, Option.some.injEq] at henc
        subst henc
        simp only [wellTyped, List.all_eq_true] at h1
        simp only [roundSafe, List.all_eq_true, Bool.and_eq_true,
          decide_eq_true_eq, two_pow_8mul] at h2
        have hde : decode_elems (fun i => decode e i) vs.length (body ++ rest) =
            .ok (vs, rest) := by
          refine decode_elems_of_encode_elems vs body rest ?_ hbody
          intro x hx b r hb
          exact ihe x (h1 x hx) (h2.2 x hx) b hb r
        simp only [decode, List.append_assoc, read_size_round h2.1 (body ++ rest),
          packed_array_succ_eq, hde]
    | prim n => simp [wellTyped] at h1
    | str s => simp [wellTyped] at h1
    | vnil => simp [wellTyped] at h1
    | vcons a b => simp [wellTyped] at h1
  | recNil =>
    intro v h1 h2 bytes henc rest
    cases v with
    | vnil =>
      simp only [encode, Option.some.injEq] at henc
      subst henc
      rfl
    | prim n => simp [wellTyped] at h1
    | str s => simp [wellTyped] at h1
    | seq vs => simp [wellTyped] at h1
    | vcons a b => simp [wellTyped] at h1
  | recCons f fs ihf ihfs =>
    intro v h1 h2 bytes henc rest
    cases v with
    | vcons v1 v2 =>
      simp only [encode] at henc
      cases hb1 : encode f v1 with
      | none => simp [hb1] at henc
      | some b1 =>
        cases hb2 : encode fs v2 with
        | none => simp [hb1, hb2] at henc
        | some b2 =>
          simp only [hb1, hb2, Option.some.injEq] at henc
          subst henc
          simp only [wellTyped, Bool.and_eq_true] at h1
          simp only [roundSafe, Bool.and_eq_true] at h2
          have h1' : decode f (b1 ++ (b2 ++ rest)) = .ok (v1, b2 ++ rest) :=
            ihf v1 h1.1 h2.1 b1 hb1 (b2 ++ rest)
          have h2' : decode fs (b2 ++ rest) = .ok (v2, rest) :=
            ihfs v2 h1.2 h2.2 b2 hb2 rest
          simp only [decode, List.append_assoc, h1', h2']
    | prim n => simp [wellTyped] at h1
    | str s => simp [wellTyped] at h1
    | seq vs => simp [wellTyped] at h1
    | vnil => simp [wellTyped] at h1

theorem deserialize_uint_extend {k : Nat} {input : List Nat} {v : Nat}
    {r : List Nat} (extra : List Nat)
    (h : deserialize_uint k input = .ok (v, r)) :
    deserialize_uint k (input ++ extra) = .ok (v, r ++ extra) := by
  simp only [deserialize_uint] at h ⊢
  split at h
  next => simp at h
  next hlt =>
    simp only [Except.ok.injEq, Prod.mk.injEq] at h
    obtain ⟨rfl, rfl⟩ := h
    have hk : k ≤ input.length := by omega
    rw [if_neg (by simp only [List.length_append]; omega),
      List.take_append_of_le_length hk, List.drop_append_of_le_length hk]

theorem read_size_extend {k : Nat} {input : List Nat} {v : Nat}
    {r : List Nat} (extra : List Nat)
    (h : read_size k input = .ok (v, r)) :
    read_size k (input ++ extra) = .ok (v, r ++ extra) := by
  simp only [read_size] at h ⊢
  split at h
  next => simp at h
  next hlt =>
    simp only [Except.ok.injEq, Prod.mk.injEq] at h
    obtain ⟨rfl, rfl⟩ := h
    have hk : k ≤ input.length := by omega
    rw [if_neg (by simp only [List.length_append]; omega),
      List.take_append_of_le_length hk, List.drop_append_of_le_length hk]

theorem deserialize_str_extend {input : List Nat} {v : List Nat}
    {r : List Nat} (extra : List Nat)
    (h : deserialize_str input = .ok (v, r)) :
    deserialize_str (input ++ extra) = .ok (v, r ++ extra) := by
  simp only [deserialize_str] at h ⊢
  cases hf : findNull input with
  | none => simp [hf] at h
  | some i =>
    simp only [hf] at h
    rw [findNull_append_some extra hf]
    have hi : i < input.length := findNull_some_lt hf
    have htake : (input ++ extra).take i = input.take i :=
      List.take_append_of_le_length (by omega)
    simp only [htake]
    by_cases hu : utf8Valid (input.take i) = true
    · simp only [if_pos hu] at h ⊢
      simp only [Except.ok.injEq, Prod.mk.injEq] at h
      obtain ⟨rfl, rfl⟩ := h
      rw [List.drop_append_of_le_length (by omega)]
    · simp [if_neg hu] at h

theorem read_tlv_string_extend {k : Nat} {input : List Nat} {v : List Nat}
    {r : List Nat} (extra : List Nat)
    (h : read_tlv_string k input = .ok (v, r)) :
    read_tlv_string k (input ++ extra) = .ok (v, r ++ extra) := by
  simp only [read_tlv_string] at h ⊢
  split at h
  next => simp at h
  next h1 =>
    have hk : k ≤ input.length := by omega
    have htk : (input ++ extra).take k = input.take k :=
      List.take_append_of_le_length hk
    rw [if_neg (by simp only [List.length_append]; omega), htk]
    split at h
    next => simp at h
    next h2 =>
      have hkl : k + from_le_bytes (input.take k) ≤ input.length := by omega
      rw [if_neg (by simp only [List.length_append]; omega)]
      rw [List.drop_append_of_le_length hk]
      rw [List.take_append_of_le_length (by simp only [List.length_drop]; omega)]
      split at h
      next h3 =>
        simp only [Except.ok.injEq, Prod.mk.injEq] at h
        obtain ⟨rfl, rfl⟩ := h
        rw [if_pos h3, List.drop_append_of_le_length hkl]
      next h3 => simp at h

theorem decode_elems_extend {α : Type}
    {dec : List Nat → Except RunError (α × List Nat)}
    (hext : ∀ (i : List Nat) (x : α) (rr : List Nat) (e : List Nat),
      dec i = .ok (x, rr) → dec (i ++ e) = .ok (x, rr ++ e)) :
    ∀ {n : Nat} {input : List Nat} {vs : List α} {rest : List Nat}
      (extra : List Nat), decode_elems dec n input = .ok (vs, rest) →
      decode_elems dec n (input ++ extra) = .ok (vs, rest ++ extra) := by
  intro n
  induction n with
  | zero =>
    intro input vs rest extra h
    simp only [decode_elems, Except.ok.injEq, Prod.mk.injEq] at h
    obtain ⟨rfl, rfl⟩ := h
    rfl
  | succ n ih =>
    intro input vs rest extra h
    simp only [decode_elems] at h ⊢
    cases hd : dec input with
    | error e => simp [hd] at h
    | ok p =>
      obtain ⟨x, r⟩ := p
      simp only [hd] at h
      rw [hext input x r extra hd]
      dsimp only
      cases hrec : decode_elems dec n r with
      | error e => simp [hrec] at h
      | ok q =>
        obtain ⟨xs, r2⟩ := q
        simp only [hrec] at h
        rw [ih extra hrec]
        simp only [Except.ok.injEq, Prod.mk.injEq] at h
        obtain ⟨rfl, rfl⟩ := h
        rfl

/-- Decoding is unaffected by bytes that follow what it consumes: whatever a
field decode returns on a buffer, it returns the same value on that buffer
with extra bytes appended, the extra bytes simply staying in the cursor. -/
theorem decode_extend :
    ∀ (s : Schema) {input : List Nat} {v : Value} {r : List Nat}
      (extra : List Nat), decode s input = .ok (v, r) →
      decode s (input ++ extra) = .ok (v, r ++ extra) := by
  intro s
  induction s with
  | prim w =>
    intro input v r extra h
    simp only [decode] at h ⊢
    cases hd : deserialize_uint (widthBytes w) input with
    | error e => simp [hd] at h
    | ok p =>
      obtain ⟨n, rest⟩ := p
      simp only [hd] at h
      rw [deserialize_uint_extend extra hd]
      simp only [Except.ok.injEq, Prod.mk.injEq] at h
      obtain ⟨rfl, rfl⟩ := h
      rfl
  | nullStr =>
    intro input v r extra h
    simp only [decode] at h ⊢
    cases hd : deserialize_str input with
    | error e => simp [hd] at h
    | ok p =>
      obtain ⟨s, rest⟩ := p
      simp only [hd] at h
      rw [deserialize_str_extend extra hd]
      simp only [Except.ok.injEq, Prod.mk.injEq] at h
      obtain ⟨rfl, rfl⟩ := h
      rfl
  | lvStr w =>
    intro input v r extra h
    simp only [decode] at h ⊢
    cases hd : read_tlv_string (widthBytes w) input with
    | error e => simp [hd] at h
    | ok p =>
      obtain ⟨s, rest⟩ := p
      simp only [hd] at h
      rw [read_tlv_string_extend extra hd]
      simp only [Except.ok.injEq, Prod.mk.injEq] at h
      obtain ⟨rfl, rfl⟩ := h
      rfl
  | countSeq w e ihe =>
    intro input v r extra h
    simp only [decode] at h ⊢
    cases hrs : read_size (widthBytes w) input with
    | error er => simp [hrs] at h
    | ok p =>
      obtain ⟨n, rest⟩ := p
      simp only [hrs] at h
      rw [read_size_extend extra hrs]
      dsimp only
      rw [packed_array_succ_eq] at h ⊢
      cases hpa : decode_elems (fun i => decode e i) n rest with
      | error er => simp [hpa] at h
      | ok q =>
        obtain ⟨vs, rest'⟩ := q
        simp only [hpa] at h
        rw [decode_elems_extend (fun i x rr ee hh => ihe ee hh) extra hpa]
        simp only [Except.ok.injEq, Prod.mk.injEq] at h
        obtain ⟨rfl, rfl⟩ := h
        rfl
  | recNil =>
    intro input v r extra h
    simp only [decode, Except.ok.injEq, Prod.mk.injEq] at h
    obtain ⟨rfl, rfl⟩ := h
    rfl
  | recCons f fs ihf ihfs =>
    intro input v r extra h
    simp only [decode] at h ⊢
    cases hd : decode f input with
    | error e => simp [hd] at h
    | ok p =>
      obtain ⟨v1, rest⟩ := p
      simp only [hd] at h
      rw [ihf extra hd]
      dsimp only
      cases hd2 : decode fs rest with
      | error e => simp [hd2] at h
      | ok q =>
        obtain ⟨v2, rest'⟩ := q
        simp only [hd2] at h
        rw [ihfs extra hd2]
        simp only [Except.ok.injEq, Prod.mk.injEq] at h
        obtain ⟨rfl, rfl⟩ := h
        rfl

theorem packed_array_byte_sized_zero {α : Type}
    (dec : List Nat → Except RunError (α × List Nat)) (input : List Nat) :
    packed_array_byte_sized dec 0 input = .ok ([], input) := by
  simp [packed_array_byte_sized]

/-- When every successful element decode consumes at least one byte, a
successful byte-budget walk consumes exactly its budget: misaligned budgets
(a partial element at the boundary) can never return `.ok`. -/
theorem packed_array_byte_sized_exact {α : Type}
    {dec : List Nat → Except RunError (α × List Nat)}
    (hdec : ∀ i x r, dec i = .ok (x, r) → r.length < i.length) :
    ∀ (bytes : Nat) {input : List Nat} {vs : List α} {rest : List Nat},
      packed_array_byte_sized dec bytes input = .ok (vs, rest) →
      input.length = bytes + rest.length := by
  intro bytes
  induction bytes using Nat.strong_induction_on with
  | _ bytes ih =>
    intro input vs rest h
    cases bytes with
    | zero =>
      simp only [packed_array_byte_sized_zero, Except.ok.injEq,
        Prod.mk.injEq] at h
      obtain ⟨rfl, rfl⟩ := h
      omega
    | succ b =>
      simp only [packed_array_byte_sized] at h
      cases hd : dec input with
      | error e => simp [hd] at h
      | ok p =>
        obtain ⟨x, r⟩ := p
        simp only [hd] at h
        have hshrink : r.length < input.length := hdec input x r hd
        split at h
        next => simp at h
        next hc =>
          split at h
          next => simp at h
          next hb =>
            cases hrec : packed_array_byte_sized dec
                (b + 1 - (input.length - r.length)) r with
            | error e => simp [hrec] at h
            | ok q =>
              obtain ⟨vs', rest'⟩ := q
              simp only [hrec] at h
              have := ih (b + 1 - (input.length - r.length)) (by omega) hrec
              simp only [Except.ok.injEq, Prod.mk.injEq] at h
              obtain ⟨rfl, rfl⟩ := h
              omega

/-- An element whose decode consumes more bytes than remain in the budget
makes the byte-budget walk fail (the source's `usize` budget subtraction
underflows). -/
theorem packed_array_byte_sized_overshoot {α : Type}
    {dec : List Nat → Except RunError (α × List Nat)}
    {input : List Nat} {x : α} {r : List Nat} (bytes : Nat)
    (h0 : 0 < bytes) (hd : dec input = .ok (x, r))
    (hover : bytes + r.length < input.length) :
    packed_array_byte_sized dec bytes input = .error .crash := by
  cases bytes with
  | zero => omega
  | succ b =>
    simp only [packed_array_byte_sized, hd]
    rw [if_neg (by omega), if_pos (by omega)]

theorem findNull_none_of_not_mem {input : List Nat} (h : (0 : Nat) ∉ input) :
    findNull input = none := by
  induction input with
  | nil => rfl
  | cons b rest ih =>
    have hb : b ≠ 0 := fun hc => h (hc ▸ List.mem_cons_self ..)
    simp only [findNull, if_neg hb]
    rw [ih fun hc => h (List.mem_cons_of_mem _ hc)]
    rfl

theorem encode_elems_total {e : Schema} {vs : List Value}
    (h : ∀ x ∈ vs, ∃ b, encode e x = some b) :
    ∃ bs, encode_elems (fun v => encode e v) vs = some bs := by
  induction vs with
  | nil => exact ⟨[], rfl⟩
  | cons x xs ih =>
    obtain ⟨b, hb⟩ := h x (List.mem_cons_self ..)
    obtain ⟨bs, hbs⟩ := ih fun y hy => h y (List.mem_cons_of_mem _ hy)
    exact ⟨b ++ bs, by simp only [encode_elems, hb, hbs]⟩

/-- Every well-typed value has an encoding: the serializer has no failing
path for the supported field kinds. -/
theorem encode_total :
    ∀ (s : Schema) (v : Value), wellTyped s v = true →
      ∃ bytes, encode s v = some bytes := by
  intro s
  induction s with
  | prim w =>
    intro v h
    cases v with
    | prim n => exact ⟨_, rfl⟩
    | str s => simp [wellTyped] at h
    | seq vs => simp [wellTyped] at h
    | vnil => simp [wellTyped] at h
    | vcons a b => simp [wellTyped] at h
  | nullStr =>
    intro v h
    cases v with
    | str s => exact ⟨_, rfl⟩
    | prim n => simp [wellTyped] at h
    | seq vs => simp [wellTyped] at h
    | vnil => simp [wellTyped] at h
    | vcons a b => simp [wellTyped] at h
  | lvStr w =>
    intro v h
    cases v with
    | str s => exact ⟨_, rfl⟩
    | prim n => simp [wellTyped] at h
    | seq vs => simp [wellTyped] at h
    | vnil => simp [wellTyped] at h
    | vcons a b => simp [wellTyped] at h
  | countSeq w e ihe =>
    intro v h
    cases v with
    | seq vs =>
      simp only [wellTyped, List.all_eq_true] at h
      obtain ⟨body, hbody⟩ := encode_elems_total fun x hx => ihe x (h x hx)
      exact ⟨to_le_bytes (widthBytes w) vs.length ++ body,
        by simp only [encode, hbody]⟩
    | prim n => simp [wellTyped] at h
    | str s => simp [wellTyped] at h
    | vnil => simp [wellTyped] at h
    | vcons a b => simp [wellTyped] at h
  | recNil =>
    intro v h
    cases v with
    | vnil => exact ⟨_, rfl⟩
    | prim n => simp [wellTyped] at h
    | str s => simp [wellTyped] at h
    | seq vs => simp [wellTyped] at h
    | vcons a b => simp [wellTyped] at h
  | recCons f fs ihf ihfs =>
    intro v h
    cases v with
    | vcons v1 v2 =>
      simp only [wellTyped, Bool.and_eq_true] at h
      obtain ⟨b1, hb1⟩ := ihf v1 h.1
      obtain ⟨b2, hb2⟩ := ihfs v2 h.2
      exact ⟨b1 ++ b2, by simp only [encode, hb1, hb2]⟩
    | prim n => simp [wellTyped] at h
    | str s => simp [wellTyped] at h
    | seq vs => simp [wellTyped] at h
    | vnil => simp [wellTyped] at h

/-- Strict-mode round trip: an encoding of a well-typed, round-trip-safe
value strict-decodes back to the value. -/
theorem strict_roundtrip (s : Schema) (v : Value) (h1 : wellTyped s v = true)
    (h2 : roundSafe s v = true) {bytes : List Nat}
    (henc : encode s v = some bytes) :
    from_bytes_strict s bytes = .ok v := by
  have h := decode_encode s v h1 h2 bytes henc []
  rw [List.append_nil] at h
  simp only [from_bytes_strict, h]

theorem to_le_bytes_pow (k : Nat) :
    to_le_bytes k (256 ^ k) = to_le_bytes k 0 := by
  induction k with
  | zero => rfl
  | succ k ih =>
    simp only [to_le_bytes]
    have h1 : (256 : Nat) ^ (k + 1) % 256 = 0 := by
      rw [pow_succ]
      omega
    have h2 : (256 : Nat) ^ (k + 1) / 256 = 256 ^ k := by
      rw [pow_succ]
      omega
    rw [h1, h2, ih]

/-- The fixed test record of ser.rs/de.rs (`test_struct_lv`): a 9P-style
header followed by a version string under the default framing. -/
def versionSchema : Schema :=
  .recCons (.prim .w32) (.recCons (.prim .w8) (.recCons (.prim .w16)
    (.recCons (.prim .w32) (.recCons .nullStr .recNil))))

/-- The value {size:47, typ:9, tag:15, msize:99, version:"muffin"}. -/
def versionValue : Value :=
  .vcons (.prim 47) (.vcons (.prim 9) (.vcons (.prim 15)
    (.vcons (.prim 99) (.vcons (.str [109, 117, 102, 102, 105, 110]) .vnil))))

/-- Claim C1 (counterexample): the round-trip law fails as stated.  The
record {version: "\x00"} uses only supported kinds and is well typed (a one
NUL byte string is valid UTF-8), yet its encoding [0, 0] strict-decodes to a
trailing-bytes error instead of the original record, because the
null-terminated decoder stops at the first 0x00 byte. -/
theorem c1_counterexample :
    wellTyped (.recCons .nullStr .recNil) (.vcons (.str [0]) .vnil) = true ∧
    encode (.recCons .nullStr .recNil) (.vcons (.str [0]) .vnil) =
      some [0, 0] ∧
    from_bytes_strict (.recCons .nullStr .recNil) [0, 0] =
      .error (.err .trailingBytes) :=
  ⟨rfl, rfl, rfl⟩

/-- Claim C1 (amended): for every record value whose fields use only
supported kinds and which additionally is round-trip safe — null-terminated
string fields contain no 0x00 byte, and every length-value string or
count-prefixed sequence is shorter than 2^W for its prefix width W —
strict-mode decoding of the encoding yields the original value, for every
string/sequence policy combination. -/
theorem c1_roundtrip (s : Schema) (v : Value) (h1 : wellTyped s v = true)
    (h2 : roundSafe s v = true) (bytes : List Nat)
    (henc : encode s v = some bytes) :
    from_bytes_strict s bytes = .ok v :=
  strict_roundtrip s v h1 h2 henc

/-- Claim C1 (witness): the round trip at the concrete muffin record. -/
theorem c1_roundtrip_witness :
    from_bytes_strict versionSchema
      [47, 0, 0, 0, 9, 15, 0, 99, 0, 0, 0,
        109, 117, 102, 102, 105, 110, 0] = .ok versionValue :=
  c1_roundtrip versionSchema versionValue (by decide) (by decide) _ rfl

/-- Claim C2: encoding {size:47u32, typ:9u8, tag:15u16, msize:99u32,
version:"muffin"} with default null-terminated framing little-endian yields
exactly [47,0,0,0, 9, 15,0, 99,0,0,0, 'm','u','f','f','i','n',0], and
decoding that buffer yields the original record. -/
theorem c2_concrete :
    to_bytes versionSchema versionValue =
      some [47, 0, 0, 0, 9, 15, 0, 99, 0, 0, 0,
        109, 117, 102, 102, 105, 110, 0] ∧
    from_bytes versionSchema
      [47, 0, 0, 0, 9, 15, 0, 99, 0, 0, 0,
        109, 117, 102, 102, 105, 110, 0] = .ok versionValue :=
  ⟨rfl, rfl⟩

/-- Claim C3 (code evaluated at the failing inputs): decoding a fixed-width
integer from a cursor holding fewer bytes than the width panics (slice
index out of bounds, modelled `.crash`) instead of returning the
end-of-input error `Error::Eof` to the caller; the `map_err(|_| Error::Eof)`
in deserialize_u16/u32/u64 is dead code. -/
theorem c3_underrun_crashes :
    decode (.prim .w8) [] = .error .crash ∧
    decode (.prim .w16) [5] = .error .crash ∧
    decode (.prim .w32) [1, 2, 3] = .error .crash ∧
    decode (.prim .w64) [1, 2, 3, 4, 5, 6, 7] = .error .crash ∧
    RunError.crash ≠ .err .eof :=
  ⟨rfl, rfl, rfl, rfl, by decide⟩

set_option maxRecDepth 4000 in
/-- Claim C4 (counterexample): a string of byte length 2^8 = 256 under
prefix-width 8 does not fail encoding with an Overflow error — the error
enum has no such variant — but encodes successfully with the length prefix
silently truncated by the `as` cast to 256 mod 2^8 = 0. -/
theorem c4_counterexample :
    utf8Valid (List.replicate 256 97) = true ∧
    encode (.lvStr .w8) (.str (List.replicate 256 97)) =
      some (0 :: List.replicate 256 97) := by
  constructor
  · exact utf8Valid_of_ascii fun b hb => by
      rw [List.eq_of_mem_replicate hb]
      norm_num
  · rfl

/-- Claim C4 (amended): a string of byte length exactly 2^W - 1 under
prefix-width W encodes and strict-decodes back to itself; a string of byte
length 2^W also encodes successfully, but with its length prefix wrapped to
0 (the W-bit bytes of 0), not with an Overflow failure. -/
theorem c4_boundary (w : Width) (s : List Nat) (hu : utf8Valid s = true) :
    (s.length = 2 ^ (8 * widthBytes w) - 1 →
      ∀ bytes, encode (.lvStr w) (.str s) = some bytes →
        from_bytes_strict (.lvStr w) bytes = .ok (.str s)) ∧
    (s.length = 2 ^ (8 * widthBytes w) →
      encode (.lvStr w) (.str s) =
        some (to_le_bytes (widthBytes w) 0 ++ s)) := by
  constructor
  · intro hlen bytes henc
    refine strict_roundtrip (.lvStr w) (.str s) hu ?_ henc
    simp only [roundSafe, decide_eq_true_eq, hlen]
    have : 0 < 2 ^ (8 * widthBytes w) := Nat.pos_pow_of_pos _ (by norm_num)
    omega
  · intro hlen
    simp only [encode, hlen, Option.some.injEq, two_pow_8mul]
    rw [to_le_bytes_pow]

set_option maxRecDepth 4000 in
/-- Claim C4 (witness): the boundary behaviour at width 8 — a 255-byte
string round-trips, the theorem applied at a concrete input. -/
theorem c4_boundary_witness :
    from_bytes_strict (.lvStr .w8) (255 :: List.replicate 255 97) =
      .ok (.str (List.replicate 255 97)) := by
  have h := c4_boundary .w8 (List.replicate 255 97) (by decide)
  exact h.1 (by decide) (255 :: List.replicate 255 97) (by decide)

/-- Claim C5: a buffer made of a complete valid encoding followed by at
least one extra byte fails strict-mode decoding with the trailing-bytes
error, while lenient-mode decoding returns the decoded value and ignores
the leftover bytes. -/
theorem c5_strict_lenient (s : Schema) (b : List Nat) (v : Value)
    (extra : List Nat) (hdec : decode s b = .ok (v, []))
    (hne : extra ≠ []) :
    from_bytes_strict s (b ++ extra) = .error (.err .trailingBytes) ∧
    from_bytes s (b ++ extra) = .ok v := by
  have h := decode_extend s extra hdec
  rw [List.nil_append] at h
  constructor
  · simp only [from_bytes_strict, h]
    cases extra with
    | nil => exact absurd rfl hne
    | cons a as => rfl
  · simp only [from_bytes, h]

/-- Claim C5 (witness): one extra byte after a complete u8 encoding. -/
theorem c5_witness :
    from_bytes_strict (.prim .w8) [7, 9] = .error (.err .trailingBytes) ∧
    from_bytes (.prim .w8) [7, 9] = .ok (.prim 7) :=
  c5_strict_lenient (.prim .w8) [7] (.prim 7) [9] rfl (by simp)

/-- Claim C6: when the W-bit count prefix reads N and the remaining input
decodes as N consecutive elements, the count-prefixed sequence decode
returns exactly those N elements in order (N = 0 consuming only the
prefix), despite the internal count-plus-one sentinel bookkeeping. -/
theorem c6_count_seq (w : Width) (e : Schema) (input : List Nat)
    (vs : List Value) (rest : List Nat)
    (hlen : widthBytes w ≤ input.length)
    (h : decode_elems (fun i => decode e i)
      (from_le_bytes (input.take (widthBytes w)))
      (input.drop (widthBytes w)) = .ok (vs, rest)) :
    decode (.countSeq w e) input = .ok (.seq vs, rest) ∧
    vs.length = from_le_bytes (input.take (widthBytes w)) := by
  have hrs : read_size (widthBytes w) input =
      .ok (from_le_bytes (input.take (widthBytes w)),
        input.drop (widthBytes w)) := by
    simp only [read_size]
    rw [if_neg (by omega)]
  refine ⟨?_, decode_elems_length h⟩
  simp only [decode, hrs, packed_array_succ_eq, h]

/-- Claim C6 (witness): a two-element u8 sequence under count width 8. -/
theorem c6_witness :
    decode (.countSeq .w8 (.prim .w8)) [2, 10, 20] =
      .ok (.seq [.prim 10, .prim 20], []) ∧
    ([Value.prim 10, Value.prim 20].length : Nat) =
      from_le_bytes ([2, 10, 20].take (widthBytes .w8)) :=
  c6_count_seq .w8 (.prim .w8) [2, 10, 20] [.prim 10, .prim 20] []
    (by decide) rfl

/-- Claim C7: in the byte-budget sequence decode, element decoding stops
exactly when the remaining budget reaches zero (a zero budget consumes
nothing and decodes no element); provided every successful element decode
consumes at least one byte, a successful walk consumes exactly its budget —
so a budget that does not divide into whole elements can never succeed —
and an element whose decode consumes more bytes than remain in the budget
makes the decode fail (the budget subtraction underflows, a panic under the
debug overflow check). -/
theorem c7_budget (α : Type)
    (dec : List Nat → Except RunError (α × List Nat))
    (hdec : ∀ i x r, dec i = .ok (x, r) → r.length < i.length)
    (input : List Nat) :
    (packed_array_byte_sized dec 0 input = .ok ([], input)) ∧
    (∀ (bytes : Nat) (vs : List α) (rest : List Nat),
      packed_array_byte_sized dec bytes input = .ok (vs, rest) →
      input.length = bytes + rest.length) ∧
    (∀ (bytes : Nat) (x : α) (r : List Nat), 0 < bytes →
      dec input = .ok (x, r) → bytes + r.length < input.length →
      packed_array_byte_sized dec bytes input = .error .crash) := by
  refine ⟨packed_array_byte_sized_zero dec input, ?_, ?_⟩
  · intro bytes vs rest h
    exact packed_array_byte_sized_exact hdec bytes h
  · intro bytes x r h0 hd hover
    exact packed_array_byte_sized_overshoot bytes h0 hd hover

/-- Claim C7 (witness): u16 elements; budget 0 stops immediately, budget 4
consumes exactly two elements, budget 1 fails on an element that needs 2
bytes. -/
theorem c7_witness :
    packed_array_byte_sized (deserialize_uint 2) 0 [1, 0, 2, 0] =
      .ok ([], [1, 0, 2, 0]) ∧
    ([1, 0, 2, 0] : List Nat).length = 4 + ([] : List Nat).length ∧
    packed_array_byte_sized (deserialize_uint 2) 1 [1, 0, 2, 0] =
      .error .crash := by
  have hdec : ∀ i x r, deserialize_uint 2 i = .ok (x, r) →
      r.length < i.length := by
    intro i x r h
    simp only [deserialize_uint] at h
    split at h
    next => simp at h
    next hlt =>
      simp only [Except.ok.injEq, Prod.mk.injEq] at h
      obtain ⟨-, rfl⟩ := h
      simp only [List.length_drop]
      omega
  have h := c7_budget Nat (deserialize_uint 2) hdec [1, 0, 2, 0]
  have h4 : packed_array_byte_sized (deserialize_uint 2) 4 [1, 0, 2, 0] =
      .ok ([1, 2], []) := by
    simp [packed_array_byte_sized, deserialize_uint, from_le_bytes]
  exact ⟨h.1, h.2.1 4 [1, 2] [] h4,
    h.2.2 1 1 [2, 0] (by omega) rfl (by decide)⟩

/-- Claim C8: null-terminated string decode on a buffer whose first 0x00 is
at index i with valid UTF-8 before it returns exactly those i bytes (the
terminator is not part of the value) and leaves the cursor just past the
terminator; on a buffer containing no 0x00 byte it fails — by the scan
running off the end of the buffer (an index panic), not by reading past
it. -/
theorem c8_null_str (input : List Nat) :
    ((0 : Nat) ∉ input → deserialize_str input = .error .crash) ∧
    (∀ i, findNull input = some i → utf8Valid (input.take i) = true →
      deserialize_str input = .ok (input.take i, input.drop (i + 1))) := by
  constructor
  · intro h
    simp only [deserialize_str, findNull_none_of_not_mem h]
  · intro i hfind hu
    simp only [deserialize_str, hfind, hu]
    rfl

/-- Claim C8 (witness): "hi\x00*" decodes to "hi" leaving "*"; "hi" with no
terminator crashes. -/
theorem c8_witness :
    deserialize_str [104, 105, 0, 42] = .ok ([104, 105], [42]) ∧
    deserialize_str [104, 105] = .error .crash := by
  constructor
  · exact (c8_null_str [104, 105, 0, 42]).2 2 rfl (by decide)
  · exact (c8_null_str [104, 105]).1 (by decide)

/-- Claim C9 (counterexample): a length-prefixed string whose payload is not
valid UTF-8 (here the single byte 0xFF under prefix width 8) fails decode
with `Error::Eof` — the end-of-input kind, which is a different kind from
the string-shaped `Error::ExpectedString` the null-terminated path uses —
because `read_tlv_string` maps the UTF-8 error to `Eof`; no InvalidText-like
variant exists in the error enum. -/
theorem c9_counterexample :
    decode (.lvStr .w8) [1, 255] = .error (.err .eof) ∧
    Error.eof ≠ Error.expectedString :=
  ⟨rfl, by decide⟩

/-- Claim C9 (amended): a length-prefixed string field whose declared-length
payload is not valid UTF-8 fails decode with the `Error::Eof` kind (the
source maps the UTF-8 validation error to `Eof`; the error enum has no
text-specific variant for this path), and the failure aborts the record
decode immediately, so no later field is consumed. -/
theorem c9_invalid_utf8 (w : Width) (fs : Schema) (payload rest : List Nat)
    (hlt : payload.length < 2 ^ (8 * widthBytes w))
    (hbad : utf8Valid payload = false) :
    decode (.lvStr w)
      (to_le_bytes (widthBytes w) payload.length ++ payload ++ rest) =
      .error (.err .eof) ∧
    decode (.recCons (.lvStr w) fs)
      (to_le_bytes (widthBytes w) payload.length ++ payload ++ rest) =
      .error (.err .eof) := by
  have hk := to_le_bytes_length (widthBytes w) payload.length
  have hlt' : payload.length < 256 ^ widthBytes w := by
    rw [← two_pow_8mul]
    exact hlt
  have e1 : (to_le_bytes (widthBytes w) payload.length ++ payload ++
      rest).take (widthBytes w) = to_le_bytes (widthBytes w) payload.length := by
    rw [List.append_assoc]
    exact take_append_exact _ hk
  have e2 : (to_le_bytes (widthBytes w) payload.length ++ payload ++
      rest).drop (widthBytes w) = payload ++ rest := by
    rw [List.append_assoc]
    exact drop_append_exact _ hk
  have e4 : (payload ++ rest).take payload.length = payload :=
    take_append_exact rest rfl
  have hL : (to_le_bytes (widthBytes w) payload.length ++ payload ++
      rest).length = widthBytes w + payload.length + rest.length := by
    simp [hk]
    omega
  have htlv : read_tlv_string (widthBytes w)
      (to_le_bytes (widthBytes w) payload.length ++ payload ++ rest) =
      .error (.err .eof) := by
    simp only [read_tlv_string, hL, e1, from_le_to_le_of_lt hlt', e2, e4, hbad]
    rw [if_neg (by omega), if_neg (by omega)]
    rfl
  exact ⟨by simp only [decode, htlv], by simp only [decode, htlv]⟩

/-- Claim C9 (witness): the amended claim at the concrete buffer [1, 0xFF]
with a following u8 field. -/
theorem c9_witness :
    decode (.lvStr .w8) (to_le_bytes 1 1 ++ [255] ++ []) =
      .error (.err .eof) ∧
    decode (.recCons (.lvStr .w8) (.recCons (.prim .w8) .recNil))
      (to_le_bytes 1 1 ++ [255] ++ []) = .error (.err .eof) :=
  c9_invalid_utf8 .w8 (.recCons (.prim .w8) .recNil) [255] []
    (by decide) (by decide)

/-- Claim C10: serialization is total on the supported kinds — for every
well-typed value (unsigned integers, strings under the default or any
length-value policy, count-prefixed sequences, nested records), to_bytes
returns an encoding; no code path produces an error value. -/
theorem c10_encode_total (s : Schema) (v : Value)
    (h : wellTyped s v = true) : ∃ bytes, to_bytes s v = some bytes :=
  encode_total s v h

/-- Claim C10 (witness): totality at the concrete muffin record. -/
theorem c10_witness : ∃ bytes, to_bytes versionSchema versionValue =
    some bytes :=
  c10_encode_total versionSchema versionValue (by decide)
